import Mathlib

/-!
Verification of the polymorphic-output-type layer of async-graphql
(interface/union derive, runtime dispatch, persisted-query extension).

The definitions below are shallow embeddings of:
  * `derive/src/interface.rs` — the `generate` function (member validation,
    introspection typename arms, schema field registration, the generated
    `resolve_field`), and
  * `src/extensions/apollo_persisted_queries.rs` — `prepare_request` and
    `LruCacheStorage`.
Parts of the repository that the claims depend on but whose source is not
in the snapshot (the union derive's flatten machinery, `Registry.create_type`,
`Context.param_value`) are modelled from the specification and carry a
`Modelled from the spec:` doc comment.
-/

set_option autoImplicit false

namespace AsyncGraphql

/-! ## Member validation (`generate`, derive/src/interface.rs lines 43-105) -/

/-- The shape of an enum variant, mirroring `darling::ast::Style`. -/
inductive Style where
  | tuple
  | unit
  | structStyle
deriving DecidableEq, Repr

/-- A variant's payload type, mirroring `syn::Type`: either a path type
(`Type::Path(p)`, identified here by the path string) or any other type. -/
inductive TypeExpr where
  | path (p : String)
  | otherTy
deriving DecidableEq, Repr

/-- One enum variant of the declarative definition (`darling` variant). -/
structure Variant where
  ident : String
  style : Style
  fields : List TypeExpr
deriving DecidableEq, Repr

/-- Errors produced by `generate` at schema-construction (derive) time,
one constructor per `Error::new_spanned` site in `interface.rs`. -/
inductive GenError where
  | onlySingleValue (variant : String)
  | emptyVariant (variant : String)
  | namedFields (variant : String)
  | invalidType (variant : String)
  | duplicateMember (variant : String) (ty : String)
deriving DecidableEq, Repr

/-- The variant-validation loop of `generate` (interface.rs lines 43-105):
matches the variant style (`Style::Tuple` with exactly one field is legal;
other tuples, unit variants and struct variants are errors), requires the
payload to be a `Type::Path`, and rejects a payload type already seen in an
earlier variant (`if !enum_items.insert(p)` → "This type already used in
another variant").  `seen` plays the role of the `enum_items` hash set;
on success it returns the payload paths in declaration order. -/
def checkVariants : List Variant → List String → Except GenError (List String)
  | [], seen => .ok seen
  | v :: rest, seen =>
    match v.style, v.fields with
    | .tuple, [ty] =>
      match ty with
      | .path p =>
        if p ∈ seen then .error (.duplicateMember v.ident p)
        else checkVariants rest (seen ++ [p])
      | .otherTy => .error (.invalidType v.ident)
    | .tuple, _ => .error (.onlySingleValue v.ident)
    | .unit, _ => .error (.emptyVariant v.ident)
    | .structStyle, _ => .error (.namedFields v.ident)

/-- Convenience: a well-shaped variant wrapping the single path type `p`. -/
def mkVariant (ident p : String) : Variant :=
  ⟨ident, .tuple, [.path p]⟩

/-- The payload path of a well-shaped variant list. -/
def variantPaths (vs : List Variant) : List String :=
  vs.map fun v =>
    match v.fields with
    | [.path p] => p
    | _ => ""

/-- All variants are single-payload tuple variants wrapping path types. -/
def WellShaped (vs : List Variant) : Prop :=
  ∀ v ∈ vs, v.style = .tuple ∧ ∃ p, v.fields = [.path p]

/-! ## Runtime dispatch (`resolve_field`, interface.rs lines 246-328) -/

/-- A source position (`ctx.item.pos`). -/
structure Pos where
  line : Nat
  column : Nat
deriving DecidableEq, Repr

/-- A result-tree path (`ctx.path_node`), as the list of response keys. -/
abbrev QPath := List String

/-- The query-error payload, mirroring the `QueryError` variants reachable
from the generated `resolve_field`: `FieldNotFound { field_name, object }`
and a resolver-produced failure (`FieldError` carried by `map_err`). -/
inductive QueryError where
  | fieldNotFound (field_name : String) (object : String)
  | resolver (inner : String)
  | bindError (message : String)
deriving DecidableEq, Repr

/-- A surfaced resolution error: the payload together with its position
annotation and optional path annotation. -/
structure ResolveError where
  pos : Pos
  path : Option QPath
  err : QueryError
deriving DecidableEq, Repr

/-- `QueryError::into_error(pos)`: annotate with a position, no path. -/
def intoError (e : QueryError) (pos : Pos) : ResolveError :=
  ⟨pos, none, e⟩

/-- `err.into_error_with_path(pos, path)`: annotate with both the position
and the result-tree path. -/
def intoErrorWithPath (e : QueryError) (pos : Pos) (path : Option QPath) : ResolveError :=
  ⟨pos, path, e⟩

/-- Resolved output values (the `serde_json::Value` results); kept abstract
as strings since the claims only track data flow. -/
abbrev JsonValue := String

/-- Bound argument values produced by the `get_params` sequence. -/
abbrev BoundArgs := List String

/-- The query-execution context seen by one `resolve_field` call:
the requested field name (`ctx.item.node.name.node`), the position
(`ctx.item.pos`) and the current path node (`ctx.path_node`). -/
structure Ctx where
  fieldName : String
  pos : Pos
  pathNode : Option QPath
deriving DecidableEq, Repr

/-- The three phases of one field-resolution path, logged in the order the
generated code reaches them: the `get_params` argument-binding block, the
`self.method(...).await` resolver invocation, and the
`OutputValueType::resolve(.., &ctx_obj, ..)` selection-set recursion. -/
inductive Event where
  | bindArgs
  | invokeResolver
  | recurseSelection
deriving DecidableEq, Repr

/-- One declared interface field as the generated `resolvers` arm sees it:
its schema name and the three capabilities the arm calls in sequence.
`bind` is the `get_params` block (its errors are already annotated by
`param_value`); `resolver` is the concrete object's capability, returning
a `FieldResult` whose error is the opaque inner failure; `resolveSel` is
the generic selection-set resolver applied to the resolver's output. -/
structure FieldDef where
  name : String
  bind : Ctx → Except ResolveError BoundArgs
  resolver : Ctx → BoundArgs → Except String JsonValue
  resolveSel : JsonValue → Except ResolveError JsonValue

/-- The generated `ContainerType::resolve_field` body (interface.rs lines
315-321) with an explicit event log.  Each `resolvers` arm is an
`if ctx.item.node.name.node == #name { ... return ... }`; the first arm whose
name matches runs: it binds arguments (`#(#get_params)*`), invokes the
concrete resolver and wraps a failure via
`err.into_error_with_path(ctx.item.pos, ctx.path_node.as_ref())`, then
recurses into the selection set.  When no arm matches, the fallthrough
returns `QueryError::FieldNotFound { field_name, object }.into_error(pos)`. -/
def resolveFieldAux (ifaceName : String) (ctx : Ctx) :
    List FieldDef → List Event → Except ResolveError JsonValue × List Event
  | [], log =>
    (.error (intoError (.fieldNotFound ctx.fieldName ifaceName) ctx.pos), log)
  | f :: rest, log =>
    if ctx.fieldName = f.name then
      let log1 := log ++ [Event.bindArgs]
      match f.bind ctx with
      | .error e => (.error e, log1)
      | .ok args =>
        let log2 := log1 ++ [Event.invokeResolver]
        match f.resolver ctx args with
        | .error inner =>
          (.error (intoErrorWithPath (.resolver inner) ctx.pos ctx.pathNode), log2)
        | .ok v =>
          let log3 := log2 ++ [Event.recurseSelection]
          (f.resolveSel v, log3)
    else
      resolveFieldAux ifaceName ctx rest log

/-- `resolve_field` for an interface named `ifaceName` with declared fields
`fields`, starting from an empty event log. -/
def resolve_field (ifaceName : String) (fields : List FieldDef) (ctx : Ctx) :
    Except ResolveError JsonValue × List Event :=
  resolveFieldAux ifaceName ctx fields []

/-! ## `__typename` introspection (interface.rs lines 95-97, 284-286) -/

/-- A tagged runtime value of a polymorphic type: each enum variant wraps
either a concrete object (whose registered type name is `typeName`) or, for
a `#[graphql(flatten)]` union variant, a value of the inner polymorphic type
whose own registered name is `polyName`. -/
inductive RValue where
  | concrete (typeName : String)
  | flattened (polyName : String) (inner : RValue)
deriving DecidableEq, Repr

/-- The generated `introspection_type_name` match (interface.rs lines 95-97
produce the concrete arms `Enum::Variant(obj) => <P as Type>::type_name()`,
spliced at lines 284-286).  The `flattened` arm is the union derive's
flatten case, modelled from the spec: "Recurse through `Flattened` members
until a concrete member is reached; return that concrete type's registered
schema name" (the union derive source is not in the snapshot). -/
def introspection_type_name : RValue → String
  | .concrete t => t
  | .flattened _ inner => introspection_type_name inner

/-- Modelled from the spec: the concrete leaf type a runtime value
ultimately wraps — "the registered schema name of that concrete object's
type".  This is the spec-side characterization `introspection_type_name`
is compared against. -/
def specLeafTypeName : RValue → String
  | .concrete t => t
  | .flattened _ inner => specLeafTypeName inner

/-- The registered names of the polymorphic descriptors a value passes
through: the outer descriptor's name plus every intermediate flattened
descriptor's name. -/
def polyDescriptorNames (outer : String) : RValue → List String
  | .concrete _ => [outer]
  | .flattened n inner => outer :: polyDescriptorNames n inner

/-! ## `possible_types` with flatten expansion (C4, C9)

Interface.rs lines 91-93 insert each direct member's `type_name()` into the
`possible_types` index set.  The flatten contribution is the union derive's,
modelled from the spec: "direct members contribute their own type name;
flattened members contribute the possible_types of the referenced descriptor
(computed by recursively invoking this same rule)", with a cycle guard
(`DefinitionError::CyclicFlatten`). -/

/-- A member of a polymorphic type definition: a direct concrete type, or a
flattened reference to another polymorphic definition by name. -/
inductive MemberRef where
  | concrete (ty : String)
  | flatten (ref : String)
deriving DecidableEq, Repr

/-- An environment of polymorphic type definitions: name ↦ member list. -/
abbrev Env := List (String × List MemberRef)

/-- Look up a definition by name (first binding wins). -/
def lookupEnv (env : Env) (name : String) : Option (List MemberRef) :=
  env.lookup name

/-- Definition errors for the possible-types computation. -/
inductive DefError where
  | cyclicFlatten (name : String)
  | typeParseError (name : String)
deriving DecidableEq, Repr

/-- `IndexSet::insert`: append the name unless it is already present, so
each concrete name appears exactly once, in first-insertion order. -/
def insertOnce (acc : List String) (t : String) : List String :=
  if t ∈ acc then acc else acc ++ [t]

mutual
/-- Modelled from the spec: the possible-types expansion of one named
definition.  `stack` is the chain of definitions currently being expanded
(the cycle guard: revisiting one is `CyclicFlatten`); a flatten reference to
a name with no definition is a definition error; `acc` is the index set
accumulated so far.  `fuel` bounds the recursion depth; `none` means the
fuel ran out (shown below never to happen for `envFuel`). -/
def ptName (env : Env) :
    Nat → List String → List String → String → Option (Except DefError (List String))
  | 0, _, _, _ => none
  | fuel + 1, stack, acc, name =>
    if name ∈ stack then some (.error (.cyclicFlatten name))
    else
      match lookupEnv env name with
      | none => some (.error (.typeParseError name))
      | some ms => ptMembers env fuel (name :: stack) acc ms
termination_by fuel _ _ _ => (fuel, 0)

/-- Expand a member list left to right: a direct member inserts its own
type name; a flattened member recursively expands the referenced
definition into the accumulator. -/
def ptMembers (env : Env) :
    Nat → List String → List String → List MemberRef → Option (Except DefError (List String))
  | _, _, acc, [] => some (.ok acc)
  | fuel, stack, acc, .concrete t :: rest =>
    ptMembers env fuel stack (insertOnce acc t) rest
  | fuel, stack, acc, .flatten r :: rest =>
    match ptName env fuel stack acc r with
    | none => none
    | some (.error e) => some (.error e)
    | some (.ok acc') => ptMembers env fuel stack acc' rest
termination_by fuel _ _ ms => (fuel, ms.length + 1)
end

/-- The fuel that always suffices: one more than the number of definitions. -/
def envFuel (env : Env) : Nat :=
  env.length + 1

/-- The `build`-time possible-types computation: run the expansion with
sufficient fuel; fuel exhaustion (proved unreachable) is reported as the
cycle guard firing. -/
def possible_types (env : Env) (name : String) : Except DefError (List String) :=
  match ptName env (envFuel env) [] [] name with
  | some r => r
  | none => .error (.cyclicFlatten name)

/-- The flatten-reference edge relation of the environment. -/
def FlattenEdge (env : Env) (a b : String) : Prop :=
  ∃ ms, lookupEnv env a = some ms ∧ MemberRef.flatten b ∈ ms

/-- A definition's flatten references form a cycle reachable from `name`. -/
def CyclicFrom (env : Env) (name : String) : Prop :=
  ∃ c, Relation.ReflTransGen (FlattenEdge env) name c ∧
    Relation.TransGen (FlattenEdge env) c c

/-- Every flatten reference of every definition is itself defined. -/
def ClosedEnv (env : Env) : Prop :=
  ∀ name ms, lookupEnv env name = some ms →
    ∀ r, MemberRef.flatten r ∈ ms → (lookupEnv env r).isSome

/-- The concrete type names a definition contributes, per the spec rule:
direct members contribute their own name, flattened members contribute the
referenced definition's contributions. -/
inductive Contributes (env : Env) : String → String → Prop where
  | direct {name ms t} : lookupEnv env name = some ms →
      MemberRef.concrete t ∈ ms → Contributes env name t
  | viaFlatten {name ms r t} : lookupEnv env name = some ms →
      MemberRef.flatten r ∈ ms → Contributes env r t → Contributes env name t

/-! ## Type registry adapter (`create_type_info`, interface.rs lines 288-309) -/

/-- Modelled from the spec: `Registry.create_type`, the idempotent insert
behind `create_type_info` (`registry.create_type::<Self, _>(..)` — the
registry store itself is not in the snapshot).  If the registry already
holds an entry for `name` the registration is a no-op that raises no error;
otherwise the descriptor is stored under `name`. -/
def registerDescriptor {α : Type} (reg : List (String × α)) (name : String) (d : α) :
    List (String × α) :=
  if (reg.lookup name).isSome then reg else reg ++ [(name, d)]

/-- How many entries of the registry are stored under `name`. -/
def countName {α : Type} (reg : List (String × α)) (name : String) : Nat :=
  (reg.filter fun e => e.1 == name).length

/-! ## Argument binder (`get_params`, interface.rs lines 167-174) -/

/-- Binder failures, per the spec's `BindError`. -/
inductive BindError where
  | typeMismatch (argument : String)
  | missingRequired (argument : String)
deriving DecidableEq, Repr

/-- A supplied query literal (kept abstract). -/
abbrev Lit := Int

/-- An invocation context for one resolver call; a computed default gets
evaluated against it, so distinct invocations can observe distinct values. -/
abbrev CallCtx := Nat

/-- Modelled from the spec: `Context.param_value(name, default)` as called
by the generated `get_params` block
(`let #ident: #ty = ctx.param_value(#name, Some(|| -> #ty { #default }))?`;
the `Context` implementation is not in the snapshot).  If the query supplies
a value, parse/coerce it into the declared type; else, if a default closure
exists, evaluate it now — the closure is freshly built per invocation, so a
computed default is re-evaluated on every call rather than cached; else the
argument is missing. -/
def param_value {V : Type} (ctx : CallCtx) (argName : String)
    (supplied : Option Lit) (coerce : Lit → Except BindError V)
    (default : Option (CallCtx → V)) : Except BindError V :=
  match supplied with
  | some l => coerce l
  | none =>
    match default with
    | some d => .ok (d ctx)
    | none => .error (.missingRequired argName)

/-! ## Apollo persisted queries (`apollo_persisted_queries.rs`) -/

/-- A JSON value, as needed by the `persistedQuery` extension payload. -/
inductive JValue where
  | num (n : Int)
  | str (s : String)
  | obj (fields : List (String × JValue))
  | otherJson

/-- Field lookup in a JSON object. -/
def JValue.getField : JValue → String → Option JValue
  | .obj fields, key => fields.lookup key
  | _, _ => none

/-- `serde_json::from_value::<PersistedQuery>`: requires a `version` number
and a `sha256Hash` string (extra fields are ignored, per serde's default). -/
def parsePersistedQuery (v : JValue) : Option (Int × String) :=
  match v.getField "version", v.getField "sha256Hash" with
  | some (.num version), some (.str hash) => some (version, hash)
  | _, _ => none

/-- A request: the query text and the extensions map. -/
structure Request where
  query : String
  extensions : List (String × JValue)

/-- Remove the first binding of `key`, returning its value (if any) and the
remaining map — `request.extensions.remove("persistedQuery")`. -/
def removeKey (m : List (String × JValue)) (key : String) :
    Option JValue × List (String × JValue) :=
  match m with
  | [] => (none, [])
  | (k, v) :: rest =>
    if k = key then (some v, rest)
    else
      let (found, rest') := removeKey rest key
      (found, (k, v) :: rest')

/-- `LruCacheStorage`: entries most-recent-first, with a capacity. -/
structure LruCache where
  entries : List (String × String)
  cap : Nat
deriving DecidableEq, Repr

/-- `lru::LruCache::get`: on a hit, move the entry to the front and return
its value; a miss leaves the cache unchanged. -/
def lruGet (c : LruCache) (k : String) : Option String × LruCache :=
  match c.entries.lookup k with
  | none => (none, c)
  | some v => (some v, ⟨(k, v) :: c.entries.filter fun e => ¬ e.1 = k, c.cap⟩)

/-- `lru::LruCache::put`: insert or refresh at the front, evicting the
least-recently-used entries beyond the capacity. -/
def lruPut (c : LruCache) (k v : String) : LruCache :=
  ⟨((k, v) :: c.entries.filter fun e => ¬ e.1 = k).take c.cap, c.cap⟩

/-- Extension errors — `Error::Other(message)`. -/
inductive ExtError where
  | otherErr (message : String)
deriving DecidableEq, Repr

/-- The version-mismatch message built by `prepare_request`. -/
def versionMessage (version : Int) : String :=
  "Only the \"PersistedQuery\" extension of version \"1\" is supported, and the current version is \"" ++ toString version ++ "\"."

/-- `ApolloPersistedQueriesExtension::prepare_request`
(apollo_persisted_queries.rs lines 77-107), with the cache storage threaded
explicitly.  The `persistedQuery` extension entry is removed from the
request up front; an unparsable payload or a version other than 1 is an
error; an empty query is looked up in the cache by its sha256 hash — a hit
substitutes the stored text, a miss is `PersistedQueryNotFound`; a
non-empty query is stored in the cache under the hash. -/
def prepare_request (storage : LruCache) (request : Request) :
    Except ExtError Request × LruCache :=
  match removeKey request.extensions "persistedQuery" with
  | (none, _) => (.ok request, storage)
  | (some value, rest) =>
    match parsePersistedQuery value with
    | none =>
      (.error (.otherErr "Invalid \"PersistedQuery\" extension configuration."), storage)
    | some (version, hash) =>
      if version ≠ 1 then (.error (.otherErr (versionMessage version)), storage)
      else if request.query = "" then
        match lruGet storage hash with
        | (some q, storage') => (.ok { query := q, extensions := rest }, storage')
        | (none, storage') => (.error (.otherErr "PersistedQueryNotFound"), storage')
      else
        (.ok { query := request.query, extensions := rest },
          lruPut storage hash request.query)

/-! ## Derived predicates and concrete instances -/

/-- The contribution rule restricted to one member list. -/
def ContributesM (env : Env) (ms : List MemberRef) (t : String) : Prop :=
  MemberRef.concrete t ∈ ms ∨ ∃ r, MemberRef.flatten r ∈ ms ∧ Contributes env r t

/-- The possible-types computation ended in the cycle guard firing. -/
def isCyclicFlattenError : Except DefError (List String) → Bool
  | .error (.cyclicFlatten _) => true
  | _ => false

/-- The environment of `test_union_flatten` (tests/union.rs lines 288-317):
`MyUnion` flattens `InnerUnion1` (wrapping `MyObj1`) and `InnerUnion2`
(wrapping `MyObj2`). -/
def unionTestEnv : Env :=
  [("MyUnion", [.flatten "InnerUnion1", .flatten "InnerUnion2"]),
   ("InnerUnion1", [.concrete "MyObj1"]),
   ("InnerUnion2", [.concrete "MyObj2"])]

/-- A two-definition environment whose flatten references form a cycle. -/
def cyclicEnv : Env :=
  [("A", [.flatten "B"]), ("B", [.flatten "A"])]

/-- An interface field named `value` whose resolver and selection-set
recursion always succeed. -/
def exField : FieldDef :=
  ⟨"value", fun _ => .ok [], fun _ _ => .ok "10", fun v => .ok v⟩

/-- An interface field named `broken` whose resolver always fails. -/
def exFieldFailing : FieldDef :=
  ⟨"broken", fun _ => .ok [], fun _ _ => .error "boom", fun v => .ok v⟩

/-- A context requesting field `other` at position 1:2 with path `["node"]`. -/
def exCtx : Ctx :=
  ⟨"other", ⟨1, 2⟩, some ["node"]⟩

/-- A context requesting field `value` at position 3:4 with path `["node"]`. -/
def exCtxValue : Ctx :=
  ⟨"value", ⟨3, 4⟩, some ["node"]⟩

/-- A context requesting field `broken` at position 5:6 with path `["node"]`. -/
def exCtxBroken : Ctx :=
  ⟨"broken", ⟨5, 6⟩, some ["node"]⟩

/-- The persisted-query extension payload `{version: 1, sha256Hash: "abc"}`. -/
def exPersisted : JValue :=
  .obj [("version", .num 1), ("sha256Hash", .str "abc")]

/-- A request with an empty query and the `abc` persisted-query extension. -/
def exRequestEmpty : Request :=
  ⟨"", [("persistedQuery", exPersisted)]⟩

/-- A cache holding the text `{ value }` under hash `abc`. -/
def exStorageHit : LruCache :=
  ⟨[("abc", "{ value }")], 256⟩

/-- A cache with no entry at all. -/
def exStorageMiss : LruCache :=
  ⟨[], 256⟩

/-! ## Theorems -/

/-- Every runtime value's introspection name is its concrete leaf name. -/
theorem introspection_eq_leaf (v : RValue) :
    introspection_type_name v = specLeafTypeName v := by
  induction v with
  | concrete t => rfl
  | flattened n inner ih =>
    simpa [introspection_type_name, specLeafTypeName] using ih

/-- C1: for every runtime value of a polymorphic type wrapping (possibly
through flattened members) a concrete object, `introspection_type_name`
returns the registered schema name of the concrete leaf type, and — as long
as that concrete name is not also used as the name of the outer descriptor
or of an intermediate flattened descriptor (schema names are unique) — it
never returns any polymorphic descriptor's own name. -/
theorem introspection_typename_concrete (outer : String) (v : RValue)
    (h : specLeafTypeName v ∉ polyDescriptorNames outer v) :
    introspection_type_name v = specLeafTypeName v ∧
    introspection_type_name v ∉ polyDescriptorNames outer v := by
  refine ⟨introspection_eq_leaf v, ?_⟩
  rw [introspection_eq_leaf v]
  exact h

/-- C1 witness: a value wrapping `A` inside flattened `F` inside outer `U`
introspects as `A`, which is neither `U` nor `F`. -/
theorem introspection_typename_concrete_witness :
    introspection_type_name (.flattened "F" (.concrete "A")) =
      specLeafTypeName (.flattened "F" (.concrete "A")) ∧
    introspection_type_name (.flattened "F" (.concrete "A")) ∉
      polyDescriptorNames "U" (.flattened "F" (.concrete "A")) :=
  introspection_typename_concrete "U" (.flattened "F" (.concrete "A")) (by decide)

/-- C5: for every declared field argument, a supplied value binds to its
coercion, and an absent value with a declared default binds to the default
evaluated at the current invocation (the default closure is applied to the
invocation context, so computed defaults are re-evaluated per call, never
cached). -/
theorem param_value_binding {V : Type} (ctx : CallCtx) (argName : String)
    (supplied : Option Lit) (coerce : Lit → Except BindError V)
    (default : Option (CallCtx → V)) :
    (∀ l, supplied = some l →
      param_value ctx argName supplied coerce default = coerce l) ∧
    (supplied = none → ∀ d, default = some d →
      param_value ctx argName supplied coerce default = .ok (d ctx)) := by
  constructor
  · rintro l rfl
    rfl
  · rintro rfl d rfl
    rfl

/-- C5 witness: declared default `10` with nothing supplied binds to `10`;
a supplied `5` binds to `5`. -/
theorem param_value_binding_witness :
    param_value (V := Int) 0 "n" none (fun l => .ok l) (some fun _ => 10) = .ok 10 ∧
    param_value (V := Int) 0 "n" (some 5) (fun l => .ok l) (some fun _ => 10) = .ok 5 :=
  ⟨(param_value_binding 0 "n" none (fun l => .ok l) (some fun _ => 10)).2 rfl _ rfl,
   (param_value_binding 0 "n" (some 5) (fun l => .ok l) (some fun _ => 10)).1 5 rfl⟩

/-- A lookup always succeeds on a list ending with the looked-up key. -/
theorem lookup_append_self {α : Type} (reg : List (String × α))
    (name : String) (d : α) :
    ((reg ++ [(name, d)]).lookup name).isSome := by
  induction reg with
  | nil => simp [List.lookup]
  | cons e rest ih =>
    obtain ⟨k, v⟩ := e
    cases hk : name == k with
    | true => simp [List.lookup, hk]
    | false =>
      rw [List.cons_append, List.lookup, hk]
      exact ih

/-- Registering a descriptor makes its name present. -/
theorem lookup_registerDescriptor {α : Type} (reg : List (String × α))
    (name : String) (d : α) :
    ((registerDescriptor reg name d).lookup name).isSome := by
  unfold registerDescriptor
  by_cases h : (reg.lookup name).isSome
  · rw [if_pos h]
    exact h
  · rw [if_neg h]
    exact lookup_append_self reg name d

/-- A name absent from the registry occurs in no entry. -/
theorem countName_eq_zero {α : Type} (reg : List (String × α)) (name : String)
    (h : reg.lookup name = none) : countName reg name = 0 := by
  induction reg with
  | nil => rfl
  | cons e rest ih =>
    obtain ⟨k, v⟩ := e
    cases hk : name == k with
    | true => simp [List.lookup, hk] at h
    | false =>
      simp only [List.lookup, hk] at h
      have hne : (k == name) = false := by
        cases hkn : k == name with
        | true =>
          rw [beq_iff_eq] at hkn
          simp [hkn] at hk
        | false => rfl
      simp only [countName, List.filter, hne, cond_false]
      exact ih h

/-- Appending a fresh entry adds one occurrence of its name. -/
theorem countName_append_self {α : Type} (reg : List (String × α))
    (name : String) (d : α) :
    countName (reg ++ [(name, d)]) name = countName reg name + 1 := by
  simp [countName, List.filter_append]

/-- C7: registering the same named polymorphic type descriptor a second time
is a no-op — the registry after two registrations is identical to the
registry after one — and, starting from a registry without the name, the
result holds exactly one entry for it.  (`registerDescriptor` is total, so
no error is ever raised; in particular two distinct unions sharing a
concrete member type may both register that member.) -/
theorem registerDescriptor_idempotent {α : Type} (reg : List (String × α))
    (name : String) (d : α) :
    registerDescriptor (registerDescriptor reg name d) name d =
      registerDescriptor reg name d ∧
    (reg.lookup name = none →
      countName (registerDescriptor (registerDescriptor reg name d) name d) name = 1) := by
  have hpresent := lookup_registerDescriptor reg name d
  constructor
  · unfold registerDescriptor
    simp [registerDescriptor] at hpresent
    simp [hpresent]
  · intro hnone
    have hstep : registerDescriptor reg name d = reg ++ [(name, d)] := by
      unfold registerDescriptor
      simp [hnone]
    have hsecond : registerDescriptor (registerDescriptor reg name d) name d =
        registerDescriptor reg name d := by
      unfold registerDescriptor
      simp [registerDescriptor] at hpresent
      simp [hpresent]
    rw [hsecond, hstep, countName_append_self, countName_eq_zero reg name hnone]

/-- C7 witness: `UnionB` registering the shared member `MyObj` after
`UnionA` already registered it leaves a single `MyObj` entry, and the second
registration changes nothing. -/
theorem registerDescriptor_idempotent_witness :
    registerDescriptor (registerDescriptor [("UnionA", "descA")] "MyObj" "descObj")
      "MyObj" "descObj" =
      registerDescriptor [("UnionA", "descA")] "MyObj" "descObj" ∧
    countName (registerDescriptor
      (registerDescriptor [("UnionA", "descA")] "MyObj" "descObj")
      "MyObj" "descObj") "MyObj" = 1 :=
  ⟨(registerDescriptor_idempotent [("UnionA", "descA")] "MyObj" "descObj").1,
   (registerDescriptor_idempotent [("UnionA", "descA")] "MyObj" "descObj").2 rfl⟩

/-- When the requested name matches no declared field, the dispatch loop
falls through to the `FieldNotFound` error and logs nothing. -/
theorem resolveFieldAux_not_found (ifaceName : String) (ctx : Ctx)
    (fields : List FieldDef) :
    ∀ log, ctx.fieldName ∉ fields.map FieldDef.name →
      resolveFieldAux ifaceName ctx fields log =
        (.error (intoError (.fieldNotFound ctx.fieldName ifaceName) ctx.pos), log) := by
  induction fields with
  | nil =>
    intro log _
    rfl
  | cons f rest ih =>
    intro log h
    simp only [List.map_cons, List.mem_cons] at h
    push_neg at h
    rw [resolveFieldAux, if_neg h.1]
    exact ih log h.2

/-- A resolver invocation is only logged when the requested name matches a
declared field. -/
theorem resolveFieldAux_invoke_mem (ifaceName : String) (ctx : Ctx)
    (fields : List FieldDef) :
    ∀ log, Event.invokeResolver ∈ (resolveFieldAux ifaceName ctx fields log).2 →
      Event.invokeResolver ∈ log ∨ ctx.fieldName ∈ fields.map FieldDef.name := by
  induction fields with
  | nil =>
    intro log h
    exact Or.inl h
  | cons f rest ih =>
    intro log h
    by_cases hname : ctx.fieldName = f.name
    · right
      simp [hname]
    · rw [resolveFieldAux, if_neg hname] at h
      rcases ih log h with h' | h'
      · exact Or.inl h'
      · right
        simp [h']

/-- The event log grows only by one of the four phase prefixes, in order. -/
theorem resolveFieldAux_trace (ifaceName : String) (ctx : Ctx)
    (fields : List FieldDef) :
    ∀ log, (resolveFieldAux ifaceName ctx fields log).2 = log ∨
      (resolveFieldAux ifaceName ctx fields log).2 = log ++ [Event.bindArgs] ∨
      (resolveFieldAux ifaceName ctx fields log).2 =
        log ++ [Event.bindArgs, Event.invokeResolver] ∨
      (resolveFieldAux ifaceName ctx fields log).2 =
        log ++ [Event.bindArgs, Event.invokeResolver, Event.recurseSelection] := by
  induction fields with
  | nil =>
    intro log
    exact Or.inl rfl
  | cons f rest ih =>
    intro log
    by_cases hname : ctx.fieldName = f.name
    · rcases hb : f.bind ctx with e | args
      · right; left
        simp [resolveFieldAux, hname, hb]
      · rcases hr : f.resolver ctx args with inner | v
        · right; right; left
          simp [resolveFieldAux, hname, hb, hr]
        · right; right; right
          simp [resolveFieldAux, hname, hb, hr]
    · rw [resolveFieldAux, if_neg hname]
      exact ih log

/-- Selection-set recursion is only logged after the matched field's
arguments bound and its resolver returned a successful value; the overall
result is then the recursion on that value. -/
theorem resolveFieldAux_recurse (ifaceName : String) (ctx : Ctx)
    (fields : List FieldDef) :
    ∀ log, Event.recurseSelection ∈ (resolveFieldAux ifaceName ctx fields log).2 →
      Event.recurseSelection ∈ log ∨
      ∃ f args v, f ∈ fields ∧ ctx.fieldName = f.name ∧ f.bind ctx = .ok args ∧
        f.resolver ctx args = .ok v ∧
        (resolveFieldAux ifaceName ctx fields log).1 = f.resolveSel v := by
  induction fields with
  | nil =>
    intro log h
    exact Or.inl h
  | cons f rest ih =>
    intro log h
    by_cases hname : ctx.fieldName = f.name
    · rcases hb : f.bind ctx with e | args
      · left
        simp [resolveFieldAux, hname, hb] at h
        exact h
      · rcases hr : f.resolver ctx args with inner | v
        · left
          simp [resolveFieldAux, hname, hb, hr] at h
          exact h
        · right
          refine ⟨f, args, v, List.mem_cons_self f rest, hname, hb, hr, ?_⟩
          simp [resolveFieldAux, hname, hb, hr]
    · rw [resolveFieldAux, if_neg hname] at h ⊢
      rcases ih log h with h' | h'
      · exact Or.inl h'
      · rcases h' with ⟨g, args, v, hmem, h1, h2, h3, h4⟩
        exact Or.inr ⟨g, args, v, List.mem_cons_of_mem f hmem, h1, h2, h3, h4⟩

/-- C2: for every interface value and requested field name not declared in
the interface's field set, `resolve_field` fails with `FieldNotFound`
carrying exactly the requested field name and the interface's schema type
name; a resolver invocation happens only when the requested name matches a
declared field. -/
theorem resolve_field_not_found (ifaceName : String) (fields : List FieldDef)
    (ctx : Ctx) :
    (ctx.fieldName ∉ fields.map FieldDef.name →
      resolve_field ifaceName fields ctx =
        (.error (intoError (.fieldNotFound ctx.fieldName ifaceName) ctx.pos), [])) ∧
    (Event.invokeResolver ∈ (resolve_field ifaceName fields ctx).2 →
      ctx.fieldName ∈ fields.map FieldDef.name) := by
  constructor
  · intro h
    exact resolveFieldAux_not_found ifaceName ctx fields [] h
  · intro h
    rcases resolveFieldAux_invoke_mem ifaceName ctx fields [] h with h' | h'
    · simp at h'
    · exact h'

/-- C2 witness: requesting `other` on an interface `MyInterface` declaring
only `value` fails with `FieldNotFound { field_name: "other", object:
"MyInterface" }`. -/
theorem resolve_field_not_found_witness :
    resolve_field "MyInterface" [exField] exCtx =
      (.error (intoError (.fieldNotFound "other" "MyInterface") ⟨1, 2⟩), []) :=
  (resolve_field_not_found "MyInterface" [exField] exCtx).1 (by decide)

/-- C6 counterexample: a `FieldNotFound` error is surfaced with no path
annotation (`path = none`) even though the context carries a result-tree
path, contradicting the claim that every resolution error is annotated with
both the query position and the result-tree path. -/
theorem resolve_field_path_counterexample :
    (resolve_field "MyInterface" [exField] exCtx).1 =
      .error ⟨⟨1, 2⟩, none, .fieldNotFound "other" "MyInterface"⟩ ∧
    exCtx.pathNode = some ["node"] :=
  ⟨rfl, rfl⟩

/-- C6 (amended): resolver failures are wrapped as `Resolver{inner}` and
annotated with both the query position and the result-tree path
(`into_error_with_path`); `FieldNotFound` errors are annotated with the
query position only, carrying no path (`into_error`). -/
theorem resolve_field_error_annotations (ifaceName : String) (f : FieldDef)
    (rest fields : List FieldDef) (ctx : Ctx) (args : BoundArgs) (inner : String)
    (hname : ctx.fieldName = f.name) (hbind : f.bind ctx = .ok args)
    (hres : f.resolver ctx args = .error inner) :
    resolve_field ifaceName (f :: rest) ctx =
      (.error (intoErrorWithPath (.resolver inner) ctx.pos ctx.pathNode),
        [Event.bindArgs, Event.invokeResolver]) ∧
    (ctx.fieldName ∉ fields.map FieldDef.name →
      resolve_field ifaceName fields ctx =
        (.error (intoError (.fieldNotFound ctx.fieldName ifaceName) ctx.pos), [])) := by
  constructor
  · simp [resolve_field, resolveFieldAux, hname, hbind, hres]
  · intro h
    exact resolveFieldAux_not_found ifaceName ctx fields [] h

/-- C6 witness: a failing resolver on field `broken` surfaces
`Resolver{"boom"}` annotated with both position 5:6 and path `["node"]`,
while an unknown field surfaces `FieldNotFound` with position only. -/
theorem resolve_field_error_annotations_witness :
    resolve_field "MyInterface" [exFieldFailing] exCtxBroken =
      (.error (intoErrorWithPath (.resolver "boom") ⟨5, 6⟩ (some ["node"])),
        [Event.bindArgs, Event.invokeResolver]) ∧
    resolve_field "MyInterface" [exField] exCtxBroken =
      (.error (intoError (.fieldNotFound "broken" "MyInterface") ⟨5, 6⟩), []) :=
  ⟨(resolve_field_error_annotations "MyInterface" exFieldFailing [] [exField]
      exCtxBroken [] "boom" rfl rfl rfl).1,
   (resolve_field_error_annotations "MyInterface" exFieldFailing [] [exField]
      exCtxBroken [] "boom" rfl rfl rfl).2 (by decide)⟩

/-- C8: within one field-resolution path the three phases occur in strict
sequential order — the logged trace is always a prefix of
`[bindArgs, invokeResolver, recurseSelection]` — and selection-set
recursion happens only after the matched field's arguments were bound and
its resolver produced its result, which the recursion then consumes. -/
theorem resolve_field_phase_order (ifaceName : String) (fields : List FieldDef)
    (ctx : Ctx) :
    ((resolve_field ifaceName fields ctx).2 = [] ∨
     (resolve_field ifaceName fields ctx).2 = [Event.bindArgs] ∨
     (resolve_field ifaceName fields ctx).2 = [Event.bindArgs, Event.invokeResolver] ∨
     (resolve_field ifaceName fields ctx).2 =
       [Event.bindArgs, Event.invokeResolver, Event.recurseSelection]) ∧
    (Event.recurseSelection ∈ (resolve_field ifaceName fields ctx).2 →
      ∃ f args v, f ∈ fields ∧ ctx.fieldName = f.name ∧ f.bind ctx = .ok args ∧
        f.resolver ctx args = .ok v ∧
        (resolve_field ifaceName fields ctx).1 = f.resolveSel v) := by
  constructor
  · have h := resolveFieldAux_trace ifaceName ctx fields []
    simpa using h
  · intro h
    rcases resolveFieldAux_recurse ifaceName ctx fields [] h with h' | h'
    · simp at h'
    · exact h'

/-- C8 witness: a successful resolution of `value` logs exactly
`[bindArgs, invokeResolver, recurseSelection]`. -/
theorem resolve_field_phase_order_witness :
    (resolve_field "MyInterface" [exField] exCtxValue).2 = [] ∨
    (resolve_field "MyInterface" [exField] exCtxValue).2 = [Event.bindArgs] ∨
    (resolve_field "MyInterface" [exField] exCtxValue).2 =
      [Event.bindArgs, Event.invokeResolver] ∨
    (resolve_field "MyInterface" [exField] exCtxValue).2 =
      [Event.bindArgs, Event.invokeResolver, Event.recurseSelection] :=
  (resolve_field_phase_order "MyInterface" [exField] exCtxValue).1

/-- A well-shaped, duplicate-free variant list validates to its payload
paths appended to the already-seen set. -/
theorem checkVariants_ok (vs : List Variant) (hws : WellShaped vs) :
    ∀ seen, (seen ++ variantPaths vs).Nodup →
      checkVariants vs seen = .ok (seen ++ variantPaths vs) := by
  induction vs with
  | nil =>
    intro seen _
    simp [checkVariants, variantPaths]
  | cons v rest ih =>
    intro seen hnd
    obtain ⟨hstyle, p, hfields⟩ := hws v (List.mem_cons_self v rest)
    have hws' : WellShaped rest := fun w hw => hws w (List.mem_cons_of_mem v hw)
    have hvp : variantPaths (v :: rest) = p :: variantPaths rest := by
      simp [variantPaths, hfields]
    rw [hvp] at hnd ⊢
    have hp : p ∉ seen := fun hmem =>
      List.disjoint_of_nodup_append hnd hmem (List.mem_cons_self p _)
    have hnd' : ((seen ++ [p]) ++ variantPaths rest).Nodup := by
      rw [List.append_cons seen p (variantPaths rest)] at hnd
      exact hnd
    have hstep := ih hws' (seen ++ [p]) hnd'
    simp only [checkVariants, hstyle, hfields]
    rw [if_neg hp, hstep, List.append_cons seen p (variantPaths rest)]

/-- When the earlier variants are pairwise distinct and variant `v` repeats
one of their payload types, validation stops at `v` with the duplicate
error. -/
theorem checkVariants_first_dup (pre : List Variant) :
    ∀ (vs : List Variant) (seen : List String) (v : Variant) (post : List Variant)
      (p : String), WellShaped vs →
      vs = pre ++ v :: post → v.fields = [.path p] →
      (seen ++ variantPaths pre).Nodup → p ∈ seen ++ variantPaths pre →
      checkVariants vs seen = .error (.duplicateMember v.ident p) := by
  induction pre with
  | nil =>
    intro vs seen v post p hws hvs hfields _ hp
    subst hvs
    obtain ⟨hstyle, q, hq⟩ := hws v (by simp)
    simp only [variantPaths, List.map_nil, List.append_nil] at hp
    simp [checkVariants, hstyle, hfields, hp]
  | cons w pre' ih =>
    intro vs seen v post p hws hvs hfields hnd hp
    subst hvs
    obtain ⟨hstylew, q, hqw⟩ := hws w (by simp)
    have hws' : WellShaped (pre' ++ v :: post) := fun u hu =>
      hws u (by simp [List.mem_cons, List.mem_append] at hu ⊢; tauto)
    have hvp : variantPaths (w :: pre') = q :: variantPaths pre' := by
      simp [variantPaths, hqw]
    rw [hvp] at hnd hp
    have hq : q ∉ seen := fun hmem =>
      List.disjoint_of_nodup_append hnd hmem (List.mem_cons_self q _)
    rw [List.cons_append]
    have hstep : checkVariants (w :: (pre' ++ v :: post)) seen =
        checkVariants (pre' ++ v :: post) (seen ++ [q]) := by
      simp only [checkVariants, hstylew, hqw]
      rw [if_neg hq]
    rw [hstep]
    apply ih (pre' ++ v :: post) (seen ++ [q]) v post p hws' rfl hfields
    · rw [List.append_cons seen q (variantPaths pre')] at hnd
      exact hnd
    · rw [List.append_cons seen q (variantPaths pre')] at hp
      exact hp

/-- C3: a polymorphic type definition in which a later variant reuses the
concrete payload type of an earlier variant fails validation inside
`generate` — i.e. at schema-construction time, before any query runs —
reporting the first duplicate in declaration order ("This type already used
in another variant"); a definition with pairwise-distinct payload types
produces no duplicate-member error. -/
theorem generate_duplicate_member (vs : List Variant) (hws : WellShaped vs) :
    (∀ pre v post p, vs = pre ++ v :: post → v.fields = [.path p] →
      (variantPaths pre).Nodup → p ∈ variantPaths pre →
      checkVariants vs [] = .error (.duplicateMember v.ident p)) ∧
    ((variantPaths vs).Nodup → checkVariants vs [] = .ok (variantPaths vs)) := by
  constructor
  · intro pre v post p hvs hfields hnd hp
    exact checkVariants_first_dup pre vs [] v post p hws hvs hfields
      (by simpa using hnd) (by simpa using hp)
  · intro hnd
    simpa using checkVariants_ok vs hws [] (by simpa using hnd)

/-- C3 witness: two variants both wrapping `MyObj` are rejected with the
duplicate reported at the second variant `B`; two variants with distinct
payloads validate successfully. -/
theorem generate_duplicate_member_witness :
    checkVariants [mkVariant "A" "MyObj", mkVariant "B" "MyObj"] [] =
      .error (.duplicateMember "B" "MyObj") ∧
    checkVariants [mkVariant "A" "MyObjOne", mkVariant "B" "MyObjTwo"] [] =
      .ok ["MyObjOne", "MyObjTwo"] := by
  have hws1 : WellShaped [mkVariant "A" "MyObj", mkVariant "B" "MyObj"] := by
    intro v hv
    simp only [List.mem_cons, List.not_mem_nil, or_false] at hv
    rcases hv with rfl | rfl
    · exact ⟨rfl, "MyObj", rfl⟩
    · exact ⟨rfl, "MyObj", rfl⟩
  have hws2 : WellShaped [mkVariant "A" "MyObjOne", mkVariant "B" "MyObjTwo"] := by
    intro v hv
    simp only [List.mem_cons, List.not_mem_nil, or_false] at hv
    rcases hv with rfl | rfl
    · exact ⟨rfl, "MyObjOne", rfl⟩
    · exact ⟨rfl, "MyObjTwo", rfl⟩
  exact ⟨(generate_duplicate_member _ hws1).1 [mkVariant "A" "MyObj"]
      (mkVariant "B" "MyObj") [] "MyObj" rfl rfl (by decide) (by decide),
    (generate_duplicate_member _ hws2).2 (by decide)⟩

/-- C10: with a version-1 `persistedQuery` extension and an empty query, a
cache hit on the sha256 hash substitutes the cached text as the request's
query; a cache miss fails with `PersistedQueryNotFound` and leaves the
cache unchanged; a request with no `persistedQuery` extension is returned
unchanged. -/
theorem prepare_request_persisted (storage : LruCache) (request : Request) :
    (∀ value rest hash q,
      removeKey request.extensions "persistedQuery" = (some value, rest) →
      parsePersistedQuery value = some (1, hash) →
      request.query = "" →
      storage.entries.lookup hash = some q →
      (prepare_request storage request).1 = .ok ⟨q, rest⟩) ∧
    (∀ value rest hash,
      removeKey request.extensions "persistedQuery" = (some value, rest) →
      parsePersistedQuery value = some (1, hash) →
      request.query = "" →
      storage.entries.lookup hash = none →
      prepare_request storage request =
        (.error (.otherErr "PersistedQueryNotFound"), storage)) ∧
    ((removeKey request.extensions "persistedQuery").1 = none →
      prepare_request storage request = (.ok request, storage)) := by
  refine ⟨?_, ?_, ?_⟩
  · intro value rest hash q hrm hp hq hlk
    simp [prepare_request, hrm, hp, hq, lruGet, hlk]
  · intro value rest hash hrm hp hq hlk
    simp [prepare_request, hrm, hp, hq, lruGet, hlk]
  · intro h
    rcases hrm : removeKey request.extensions "persistedQuery" with ⟨found, rest⟩
    rw [hrm] at h
    simp only at h
    subst h
    simp [prepare_request, hrm]

/-- C10 witness: hash `abc` cached as `{ value }` is substituted into the
empty-query request; an empty cache yields `PersistedQueryNotFound` with
the cache left unchanged. -/
theorem prepare_request_persisted_witness :
    (prepare_request exStorageHit exRequestEmpty).1 = .ok ⟨"{ value }", []⟩ ∧
    prepare_request exStorageMiss exRequestEmpty =
      (.error (.otherErr "PersistedQueryNotFound"), exStorageMiss) :=
  ⟨(prepare_request_persisted exStorageHit exRequestEmpty).1 exPersisted [] "abc"
      "{ value }" rfl rfl rfl rfl,
   (prepare_request_persisted exStorageMiss exRequestEmpty).2.1 exPersisted [] "abc"
      rfl rfl rfl rfl⟩

/-- Membership after an index-set insertion. -/
theorem mem_insertOnce (acc : List String) (t x : String) :
    x ∈ insertOnce acc t ↔ x ∈ acc ∨ x = t := by
  unfold insertOnce
  by_cases h : t ∈ acc
  · rw [if_pos h]
    constructor
    · exact Or.inl
    · rintro (hx | rfl)
      · exact hx
      · exact h
  · rw [if_neg h]
    simp

/-- Index-set insertion preserves freedom from duplicates. -/
theorem nodup_insertOnce (acc : List String) (t : String) (h : acc.Nodup) :
    (insertOnce acc t).Nodup := by
  unfold insertOnce
  by_cases ht : t ∈ acc
  · rw [if_pos ht]
    exact h
  · rw [if_neg ht]
    exact List.Nodup.append h (List.nodup_singleton t)
      (fun a ha hb => ht (List.mem_singleton.mp hb ▸ ha))

/-- No member list means no contributions. -/
theorem contributesM_nil (env : Env) (x : String) :
    ¬ ContributesM env [] x := by
  simp [ContributesM]

/-- Contributions of a member list headed by a direct member. -/
theorem contributesM_cons_concrete (env : Env) (t : String)
    (rest : List MemberRef) (x : String) :
    ContributesM env (.concrete t :: rest) x ↔ x = t ∨ ContributesM env rest x := by
  simp only [ContributesM, List.mem_cons]
  constructor
  · rintro ((heq | hmem) | ⟨s, hs | hs, hc⟩)
    · injection heq with heq
      exact Or.inl heq
    · exact Or.inr (Or.inl hmem)
    · cases hs
    · exact Or.inr (Or.inr ⟨s, hs, hc⟩)
  · rintro (rfl | hc | ⟨s, hs, hc⟩)
    · exact Or.inl (Or.inl rfl)
    · exact Or.inl (Or.inr hc)
    · exact Or.inr ⟨s, Or.inr hs, hc⟩

/-- Contributions of a member list headed by a flattened member. -/
theorem contributesM_cons_flatten (env : Env) (r : String)
    (rest : List MemberRef) (x : String) :
    ContributesM env (.flatten r :: rest) x ↔
      Contributes env r x ∨ ContributesM env rest x := by
  simp only [ContributesM, List.mem_cons]
  constructor
  · rintro ((heq | hmem) | ⟨s, hs | hs, hc⟩)
    · cases heq
    · exact Or.inr (Or.inl hmem)
    · injection hs with hs
      subst hs
      exact Or.inl hc
    · exact Or.inr (Or.inr ⟨s, hs, hc⟩)
  · rintro (hc | hc | ⟨s, hs, hc⟩)
    · exact Or.inr ⟨r, Or.inl rfl, hc⟩
    · exact Or.inl (Or.inr hc)
    · exact Or.inr ⟨s, Or.inr hs, hc⟩

/-- A successful member-list expansion is duplicate-free (when the incoming
accumulator is) and collects exactly the accumulator plus the member list's
contributions. -/
theorem ptMembers_char (env : Env) (fuel : Nat)
    (hN : ∀ stack acc name l, ptName env fuel stack acc name = some (.ok l) →
      (acc.Nodup → l.Nodup) ∧ ∀ x, x ∈ l ↔ x ∈ acc ∨ Contributes env name x)
    (ms : List MemberRef) :
    ∀ stack acc l, ptMembers env fuel stack acc ms = some (.ok l) →
      (acc.Nodup → l.Nodup) ∧ ∀ x, x ∈ l ↔ x ∈ acc ∨ ContributesM env ms x := by
  induction ms with
  | nil =>
    intro stack acc l h
    rw [ptMembers] at h
    have hal : acc = l := by
      simpa using h
    subst hal
    refine ⟨fun hn => hn, fun x => ?_⟩
    simp [ContributesM]
  | cons m rest ih =>
    intro stack acc l h
    cases m with
    | concrete t =>
      rw [ptMembers] at h
      obtain ⟨h1, h2⟩ := ih stack (insertOnce acc t) l h
      refine ⟨fun hn => h1 (nodup_insertOnce acc t hn), fun x => ?_⟩
      rw [h2 x, mem_insertOnce, contributesM_cons_concrete]
      tauto
    | flatten r =>
      rw [ptMembers] at h
      rcases hr : ptName env fuel stack acc r with _ | res
      · rw [hr] at h
        simp at h
      · rcases res with e | acc'
        · rw [hr] at h
          simp at h
        · rw [hr] at h
          simp only at h
          obtain ⟨hN1, hN2⟩ := hN stack acc r acc' hr
          obtain ⟨h1, h2⟩ := ih stack acc' l h
          refine ⟨fun hn => h1 (hN1 hn), fun x => ?_⟩
          rw [h2 x, hN2 x, contributesM_cons_flatten]
          tauto

/-- The contribution rule for a name coincides with the rule for its
member list. -/
theorem contributes_iff (env : Env) (name : String) (ms : List MemberRef)
    (h : lookupEnv env name = some ms) (x : String) :
    Contributes env name x ↔ ContributesM env ms x := by
  constructor
  · intro hc
    cases hc with
    | direct hl hm =>
      rw [h] at hl
      injection hl with hl
      subst hl
      exact Or.inl hm
    | viaFlatten hl hm hc =>
      rw [h] at hl
      injection hl with hl
      subst hl
      exact Or.inr ⟨_, hm, hc⟩
  · rintro (hm | ⟨r, hm, hc⟩)
    · exact Contributes.direct h hm
    · exact Contributes.viaFlatten h hm hc

/-- A successful name expansion is duplicate-free (when the incoming
accumulator is) and collects exactly the accumulator plus that name's
contributions — for every fuel. -/
theorem ptName_char (env : Env) :
    ∀ fuel stack acc name l, ptName env fuel stack acc name = some (.ok l) →
      (acc.Nodup → l.Nodup) ∧ ∀ x, x ∈ l ↔ x ∈ acc ∨ Contributes env name x := by
  intro fuel
  induction fuel with
  | zero =>
    intro stack acc name l h
    rw [ptName] at h
    cases h
  | succ fuel ih =>
    intro stack acc name l h
    rw [ptName] at h
    by_cases hs : name ∈ stack
    · rw [if_pos hs] at h
      simp at h
    · rw [if_neg hs] at h
      rcases hl : lookupEnv env name with _ | ms
      · rw [hl] at h
        simp at h
      · rw [hl] at h
        simp only at h
        obtain ⟨h1, h2⟩ := ptMembers_char env fuel ih ms (name :: stack) acc l h
        exact ⟨h1, fun x => by rw [h2 x, contributes_iff env name ms hl x]⟩

/-- C4: whenever the possible-types computation succeeds, the resulting set
contains each concrete name exactly once and holds precisely the names
contributed directly plus, recursively through arbitrarily many levels of
flattening, the possible types of every flattened member. -/
theorem possible_types_flatten (env : Env) (name : String) (l : List String)
    (h : possible_types env name = .ok l) :
    l.Nodup ∧ ∀ x, x ∈ l ↔ Contributes env name x := by
  unfold possible_types at h
  rcases hp : ptName env (envFuel env) [] [] name with _ | r
  · rw [hp] at h
    simp at h
  · rw [hp] at h
    simp only at h
    subst h
    obtain ⟨h1, h2⟩ := ptName_char env (envFuel env) [] [] name l hp
    refine ⟨h1 List.nodup_nil, fun x => ?_⟩
    rw [h2 x]
    simp

/-- C4 witness: in the `test_union_flatten` environment, `MyUnion`'s
possible types are exactly `{MyObj1, MyObj2}`, each once, and membership of
`MyObj2` coincides with the recursive contribution rule. -/
theorem possible_types_flatten_witness :
    (["MyObj1", "MyObj2"] : List String).Nodup ∧
    ("MyObj2" ∈ (["MyObj1", "MyObj2"] : List String) ↔
      Contributes unionTestEnv "MyUnion" "MyObj2") := by
  have h : possible_types unionTestEnv "MyUnion" = .ok ["MyObj1", "MyObj2"] := by
    simp [possible_types, envFuel, unionTestEnv, ptName, ptMembers, lookupEnv,
      List.lookup, insertOnce]
  exact ⟨(possible_types_flatten unionTestEnv "MyUnion" ["MyObj1", "MyObj2"] h).1,
    (possible_types_flatten unionTestEnv "MyUnion" ["MyObj1", "MyObj2"] h).2 "MyObj2"⟩

/-- A successfully looked-up name is one of the environment's keys. -/
theorem mem_keys_of_lookup_isSome (env : Env) (s : String)
    (h : (lookupEnv env s).isSome) : s ∈ env.map Prod.fst := by
  induction env with
  | nil => simp [lookupEnv, List.lookup] at h
  | cons e rest ih =>
    obtain ⟨k, v⟩ := e
    cases hk : s == k with
    | true =>
      have hs : s = k := by
        rw [beq_iff_eq] at hk
        exact hk
      simp [hs]
    | false =>
      simp only [lookupEnv, List.lookup, hk] at h
      simp only [List.map_cons, List.mem_cons]
      exact Or.inr (ih h)

/-- A duplicate-free stack of defined names is no longer than the
environment. -/
theorem stack_length_le (env : Env) (stack : List String) (hnd : stack.Nodup)
    (hmem : ∀ s ∈ stack, (lookupEnv env s).isSome) :
    stack.length ≤ env.length := by
  have hsub : stack.toFinset ⊆ (env.map Prod.fst).toFinset := by
    intro a ha
    rw [List.mem_toFinset] at ha ⊢
    exact mem_keys_of_lookup_isSome env a (hmem a ha)
  calc stack.length = stack.toFinset.card := (List.toFinset_card_of_nodup hnd).symm
    _ ≤ (env.map Prod.fst).toFinset.card := Finset.card_le_card hsub
    _ ≤ (env.map Prod.fst).length := List.toFinset_card_le _
    _ = env.length := List.length_map _ _

/-- The member-list expansion cannot run out of fuel when the name
expansion cannot. -/
theorem ptMembers_isSome (env : Env) (fuel : Nat)
    (hT : ∀ stack acc name, stack.Nodup →
      (∀ s ∈ stack, (lookupEnv env s).isSome) →
      env.length + 1 ≤ fuel + stack.length →
      (ptName env fuel stack acc name).isSome)
    (ms : List MemberRef) :
    ∀ stack acc, stack.Nodup → (∀ s ∈ stack, (lookupEnv env s).isSome) →
      env.length + 1 ≤ fuel + stack.length →
      (ptMembers env fuel stack acc ms).isSome := by
  induction ms with
  | nil =>
    intro stack acc _ _ _
    rw [ptMembers]
    rfl
  | cons m rest ih =>
    intro stack acc hnd hmem hfuel
    cases m with
    | concrete t =>
      rw [ptMembers]
      exact ih stack (insertOnce acc t) hnd hmem hfuel
    | flatten r =>
      rw [ptMembers]
      rcases hr : ptName env fuel stack acc r with _ | res
      · have hcontra := hT stack acc r hnd hmem hfuel
        rw [hr] at hcontra
        simp at hcontra
      · rcases res with e | acc'
        · simp
        · exact ih stack acc' hnd hmem hfuel

/-- With fuel exceeding the number of definitions the expansion always
returns a definite answer: the cycle guard fires before the fuel can run
out, because the guard stack repeats no name. -/
theorem ptName_isSome (env : Env) :
    ∀ fuel stack acc name, stack.Nodup →
      (∀ s ∈ stack, (lookupEnv env s).isSome) →
      env.length + 1 ≤ fuel + stack.length →
      (ptName env fuel stack acc name).isSome := by
  intro fuel
  induction fuel with
  | zero =>
    intro stack acc name hnd hmem hfuel
    exfalso
    have hle := stack_length_le env stack hnd hmem
    omega
  | succ fuel ih =>
    intro stack acc name hnd hmem hfuel
    rw [ptName]
    by_cases hs : name ∈ stack
    · rw [if_pos hs]
      rfl
    · rw [if_neg hs]
      rcases hl : lookupEnv env name with _ | ms
      · rfl
      · apply ptMembers_isSome env fuel ih ms (name :: stack) acc
        · exact List.nodup_cons.mpr ⟨hs, hnd⟩
        · intro s hsm
          rcases List.mem_cons.mp hsm with rfl | hsm
          · rw [hl]
            rfl
          · exact hmem s hsm
        · simp only [List.length_cons]
          omega

/-- A successful member-list expansion implies every flattened member's own
expansion succeeded (with whatever accumulator reached it). -/
theorem ptMembers_ok_flatten (env : Env) (fuel : Nat) (ms : List MemberRef) :
    ∀ stack acc l, ptMembers env fuel stack acc ms = some (.ok l) →
      ∀ r, MemberRef.flatten r ∈ ms →
        ∃ acc' l', ptName env fuel stack acc' r = some (.ok l') := by
  induction ms with
  | nil =>
    intro stack acc l _ r hr
    cases hr
  | cons m rest ih =>
    intro stack acc l h r hr
    cases m with
    | concrete t =>
      rw [ptMembers] at h
      rcases List.mem_cons.mp hr with heq | hmem
      · cases heq
      · exact ih stack (insertOnce acc t) l h r hmem
    | flatten s =>
      rw [ptMembers] at h
      rcases hps : ptName env fuel stack acc s with _ | res
      · rw [hps] at h
        simp at h
      · rcases res with e | acc'
        · rw [hps] at h
          simp at h
        · rw [hps] at h
          simp only at h
          rcases List.mem_cons.mp hr with heq | hmem
          · injection heq with heq
            subst heq
            exact ⟨acc, acc', hps⟩
          · exact ih stack acc' l h r hmem

/-- Soundness of the cycle guard: a successful expansion of `name` means no
definition reachable from `name` along flatten references lies on a cycle. -/
theorem ptName_ok_acyclic (env : Env) :
    ∀ fuel stack acc name l, ptName env fuel stack acc name = some (.ok l) →
      ∀ c, Relation.ReflTransGen (FlattenEdge env) name c →
        ¬ Relation.TransGen (FlattenEdge env) c c := by
  intro fuel
  induction fuel with
  | zero =>
    intro stack acc name l h
    rw [ptName] at h
    cases h
  | succ fuel ih =>
    intro stack acc name l h c hreach hcyc
    rw [ptName] at h
    by_cases hs : name ∈ stack
    · rw [if_pos hs] at h
      simp at h
    · rw [if_neg hs] at h
      rcases hl : lookupEnv env name with _ | ms
      · rw [hl] at h
        simp at h
      · rw [hl] at h
        simp only at h
        have hedge_mem : ∀ b, FlattenEdge env name b → MemberRef.flatten b ∈ ms := by
          intro b hb
          obtain ⟨ms', hl', hmem⟩ := hb
          rw [hl] at hl'
          injection hl' with hl'
          subst hl'
          exact hmem
        rcases Relation.ReflTransGen.cases_head hreach with rfl | ⟨b, hedge, hrtg⟩
        · obtain ⟨b, hedge, hrtg⟩ := Relation.TransGen.head'_iff.mp hcyc
          obtain ⟨acc', l', hb⟩ :=
            ptMembers_ok_flatten env fuel ms (name :: stack) acc l h b (hedge_mem b hedge)
          exact ih (name :: stack) acc' b l' hb name hrtg hcyc
        · obtain ⟨acc', l', hb⟩ :=
            ptMembers_ok_flatten env fuel ms (name :: stack) acc l h b (hedge_mem b hedge)
          exact ih (name :: stack) acc' b l' hb c hrtg hcyc

/-- For a closed environment, the only member-list expansion error is the
cycle guard. -/
theorem ptMembers_error_cyclic (env : Env) (fuel : Nat)
    (hT : ∀ stack acc name e, (lookupEnv env name).isSome →
      ptName env fuel stack acc name = some (.error e) →
      ∃ c, e = .cyclicFlatten c)
    (ms : List MemberRef) :
    ∀ stack acc e, (∀ r, MemberRef.flatten r ∈ ms → (lookupEnv env r).isSome) →
      ptMembers env fuel stack acc ms = some (.error e) →
      ∃ c, e = .cyclicFlatten c := by
  induction ms with
  | nil =>
    intro stack acc e _ h
    rw [ptMembers] at h
    simp at h
  | cons m rest ih =>
    intro stack acc e hms h
    cases m with
    | concrete t =>
      rw [ptMembers] at h
      exact ih stack (insertOnce acc t) e
        (fun r hr => hms r (List.mem_cons_of_mem _ hr)) h
    | flatten r =>
      rw [ptMembers] at h
      rcases hr : ptName env fuel stack acc r with _ | res
      · rw [hr] at h
        simp at h
      · rcases res with e' | acc'
        · rw [hr] at h
          simp only at h
          injection h with h
          injection h with h
          subst h
          exact hT stack acc r e' (hms r (List.mem_cons_self _ _)) hr
        · rw [hr] at h
          simp only at h
          exact ih stack acc' e
            (fun s hs => hms s (List.mem_cons_of_mem _ hs)) h

/-- For a closed environment, the only name-expansion error is the cycle
guard — for every fuel. -/
theorem ptName_error_cyclic (env : Env) (hclosed : ClosedEnv env) :
    ∀ fuel stack acc name e, (lookupEnv env name).isSome →
      ptName env fuel stack acc name = some (.error e) →
      ∃ c, e = .cyclicFlatten c := by
  intro fuel
  induction fuel with
  | zero =>
    intro stack acc name e _ h
    rw [ptName] at h
    cases h
  | succ fuel ih =>
    intro stack acc name e hlk h
    rw [ptName] at h
    by_cases hs : name ∈ stack
    · rw [if_pos hs] at h
      injection h with h
      injection h with h
      subst h
      exact ⟨name, rfl⟩
    · rw [if_neg hs] at h
      rcases hl : lookupEnv env name with _ | ms
      · rw [hl] at hlk
        simp at hlk
      · rw [hl] at h
        simp only at h
        exact ptMembers_error_cyclic env fuel ih ms (name :: stack) acc e
          (fun r hr => hclosed name ms hl r hr) h

/-- C9: the possible-types computation always terminates with a definite
answer — the chosen fuel, one more than the number of definitions, is never
exhausted, so for acyclic flatten references it is a total function — and
for a closed environment whose flatten references form a cycle reachable
from `name`, build rejects the definition with `CyclicFlatten` instead of
diverging. -/
theorem possible_types_terminates (env : Env) (name : String) :
    (ptName env (envFuel env) [] [] name).isSome ∧
    (ClosedEnv env → (lookupEnv env name).isSome → CyclicFrom env name →
      isCyclicFlattenError (possible_types env name) = true) := by
  have hsome : (ptName env (envFuel env) [] [] name).isSome :=
    ptName_isSome env (envFuel env) [] [] name List.nodup_nil
      (by simp) (by simp [envFuel])
  refine ⟨hsome, fun hclosed hlk hcyc => ?_⟩
  rcases hp : ptName env (envFuel env) [] [] name with _ | res
  · rw [hp] at hsome
    simp at hsome
  · rcases res with e | l
    · obtain ⟨c, rfl⟩ := ptName_error_cyclic env hclosed (envFuel env) [] [] name e hlk hp
      simp [possible_types, hp, isCyclicFlattenError]
    · exfalso
      obtain ⟨c, hrtg, htg⟩ := hcyc
      exact ptName_ok_acyclic env (envFuel env) [] [] name l hp c hrtg htg

/-- C9 witness: in the two-definition environment `A ↦ flatten B`,
`B ↦ flatten A`, the computation still returns a definite answer, namely
the `CyclicFlatten` rejection. -/
theorem possible_types_terminates_witness :
    (ptName cyclicEnv (envFuel cyclicEnv) [] [] "A").isSome ∧
    isCyclicFlattenError (possible_types cyclicEnv "A") = true := by
  have hclosed : ClosedEnv cyclicEnv := by
    intro n ms h r hr
    by_cases hA : n = "A"
    · subst hA
      have hms : ms = [MemberRef.flatten "B"] := by
        have h2 : lookupEnv cyclicEnv "A" = some [MemberRef.flatten "B"] := by decide
        rw [h2] at h
        injection h with h
        exact h.symm
      subst hms
      have hrB : r = "B" := by simpa using hr
      subst hrB
      decide
    · by_cases hB : n = "B"
      · subst hB
        have hms : ms = [MemberRef.flatten "A"] := by
          have h2 : lookupEnv cyclicEnv "B" = some [MemberRef.flatten "A"] := by decide
          rw [h2] at h
          injection h with h
          exact h.symm
        subst hms
        have hrA : r = "A" := by simpa using hr
        subst hrA
        decide
      · exfalso
        have hA2 : (n == "A") = false := beq_eq_false_iff_ne.mpr hA
        have hB2 : (n == "B") = false := beq_eq_false_iff_ne.mpr hB
        have hnone : lookupEnv cyclicEnv n = none := by
          simp [lookupEnv, cyclicEnv, List.lookup, hA2, hB2]
        rw [hnone] at h
        cases h
  have hcyc : CyclicFrom cyclicEnv "A" := by
    refine ⟨"A", Relation.ReflTransGen.refl, ?_⟩
    have eAB : FlattenEdge cyclicEnv "A" "B" :=
      ⟨[MemberRef.flatten "B"], by decide, by simp⟩
    have eBA : FlattenEdge cyclicEnv "B" "A" :=
      ⟨[MemberRef.flatten "A"], by decide, by simp⟩
    exact Relation.TransGen.head eAB (Relation.TransGen.single eBA)
  exact ⟨(possible_types_terminates cyclicEnv "A").1,
    (possible_types_terminates cyclicEnv "A").2 hclosed (by decide) hcyc⟩

end AsyncGraphql
